import Mathlib

/-!
Verification of the dynamic argument-binding core of the skill-framework
repository (`skill_framework/skills.py`), shallowly embedded in Lean 4.

The embedding models:
  * `SkillParameter` and its pydantic `field_validator` on `name`
    (`is_valid_parameter_name`: `name.isidentifier() and not keyword.iskeyword(name)`,
    restricted here to ASCII identifiers);
  * the schema synthesized by `_create_skill_arguments` via pydantic
    `create_model` (a dict comprehension over the parameters, so duplicate
    names collide with last-write-wins while keeping the first position,
    exactly like a Python dict);
  * pydantic instantiation `cls(**assign_args)`: a field of type `list[Any]`
    accepts exactly list values (pydantic v2 rejects non-sequence input for
    list fields, and does not treat strings as sequences), a field of type
    `Any | None` accepts any value unchanged; absent fields take their
    default (`default_factory=list` for multi fields, `default=None`
    otherwise).  Pydantic collects all validation errors before raising; we
    abstract failure as an `Except` carrying the first error message, which
    is faithful for everything the claims state (raise vs. no raise).

Python values are modelled by the inductive `Value`; `None` is `Value.vnone`.
Python dicts (the raw argument mapping, the synthesized fields, and the
resulting argument instance) are modelled as association lists with string
keys.
-/

/-- A dynamically-typed Python value, as far as the binding core observes it:
the absence sentinel `None`, strings, integers, booleans and lists. -/
inductive Value where
  | vnone
  | vstr (s : String)
  | vint (n : Int)
  | vbool (b : Bool)
  | vlist (xs : List Value)
deriving Repr

/-- Whether a value is a Python list (the only `Value` constructor pydantic
v2 accepts for a `list[Any]` field; strings and scalars are rejected). -/
def Value.isList : Value → Bool
  | .vlist _ => true
  | _ => false

/-- Association-list lookup with string keys: the first binding wins, which
matches Python dict access on a dict built left to right without duplicate
keys. -/
def alookup {α : Type} (k : String) : List (String × α) → Option α
  | [] => none
  | (k₀, v) :: rest => if k₀ = k then some v else alookup k rest

/-- Python dict insertion: overwrite the value of an existing key in place
(keeping its original position), otherwise append the new binding at the
end.  This is the semantics of repeated assignment in a dict
comprehension. -/
def dictInsert {α : Type} (k : String) (v : α) : List (String × α) → List (String × α)
  | [] => [(k, v)]
  | (k₀, v₀) :: rest => if k₀ = k then (k, v) :: rest else (k₀, v₀) :: dictInsert k v rest

/-- The 35 reserved keywords of Python 3 (`keyword.kwlist`). -/
def pythonKeywords : List String :=
  ["False", "None", "True", "and", "as", "assert", "async", "await",
   "break", "class", "continue", "def", "del", "elif", "else", "except",
   "finally", "for", "from", "global", "if",
   "in", "is", "lambda", "nonlocal", "not", "or", "pass",
   "raise", "return", "try", "while", "with", "yield", "import"]

/-- First character of a Python identifier (ASCII fragment): a letter or an
underscore. -/
def isIdentStart (c : Char) : Bool := c.isAlpha || c = '_'

/-- Non-first character of a Python identifier (ASCII fragment): a letter, a
digit or an underscore. -/
def isIdentChar (c : Char) : Bool := c.isAlphanum || c = '_'

/-- Python's `str.isidentifier`, restricted to ASCII: non-empty, starts with
a letter or underscore, continues with letters, digits or underscores. -/
def pyIsIdentifier (s : String) : Bool :=
  match s.data with
  | [] => false
  | c :: cs => isIdentStart c && cs.all isIdentChar

/-- `is_valid_parameter_name` from `skills.py`:
`name.isidentifier() and not keyword.iskeyword(name)`. -/
def is_valid_parameter_name (name : String) : Bool :=
  pyIsIdentifier name && !(pythonKeywords.contains name)

/-- The name-validator contract as the specification words it: the name is
non-empty, consists only of letters, digits and underscores, does not start
with a digit, and is not a reserved keyword of the host language. -/
def specValidName (s : String) : Prop :=
  s.data ≠ [] ∧
  (∀ c ∈ s.data, c.isAlpha = true ∨ c.isDigit = true ∨ c = '_') ∧
  (∀ c, s.data.head? = some c → c.isDigit = false) ∧
  s ∉ pythonKeywords

/-- `SkillParameter` (`skills.py`): name, advisory type constraint,
multiplicity flag, description, advisory allow-list. -/
structure SkillParameter where
  name : String
  constrained_to : Option String
  is_multi : Bool
  description : Option String
  constrained_values : List String
deriving Repr, DecidableEq

/-- Pydantic construction of a `SkillParameter`: the `validate_name` field
validator raises a `ValueError` (surfaced as a pydantic `ValidationError`)
when `is_valid_parameter_name` fails, otherwise the model is built. -/
def SkillParameter.make (name : String) (constrained_to : Option String)
    (is_multi : Bool) (description : Option String)
    (constrained_values : List String) : Except String SkillParameter :=
  if is_valid_parameter_name name then
    .ok ⟨name, constrained_to, is_multi, description, constrained_values⟩
  else
    .error "Parameter name must be a valid python identifier"

/-- The annotation chosen for a synthesized field: `list[Any]` for a
multi-valued parameter, `Any | None` otherwise (`field_type` in
`_create_skill_arguments`). -/
inductive FieldType where
  | listAny
  | anyOrNone
deriving Repr, DecidableEq

/-- The default chosen for a synthesized field: `Field(default_factory=list)`
for a multi-valued parameter, `Field(default=None)` otherwise
(`parameter_field` in `_create_skill_arguments`). -/
inductive FieldDefault where
  | factoryList
  | defaultNone
deriving Repr, DecidableEq

/-- `field_type` from `_create_skill_arguments`. -/
def field_type (p : SkillParameter) : FieldType :=
  if p.is_multi then .listAny else .anyOrNone

/-- `parameter_field` from `_create_skill_arguments`. -/
def parameter_field (p : SkillParameter) : FieldDefault :=
  if p.is_multi then .factoryList else .defaultNone

/-- The value an absent field takes: `default_factory=list` produces an
empty list, `default=None` produces the absence sentinel. -/
def defaultValue : FieldDefault → Value
  | .factoryList => .vlist []
  | .defaultNone => .vnone

/-- Pydantic validation of one supplied value against a field annotation:
`list[Any]` accepts exactly lists (element type `Any` never rejects),
`Any | None` accepts anything, both returning the value unchanged. -/
def validateField (t : FieldType) (v : Value) : Except String Value :=
  match t with
  | .listAny =>
    match v with
    | .vlist xs => .ok (.vlist xs)
    | _ => .error "Input should be a valid list"
  | .anyOrNone => .ok v

/-- The field dict passed to `create_model`: the dict comprehension
`{param.name: (field_type(param), parameter_field(param)) for param in skill.parameters}`. -/
def fieldsFrom (acc : List (String × (FieldType × FieldDefault)))
    (ps : List SkillParameter) : List (String × (FieldType × FieldDefault)) :=
  ps.foldl (fun a p => dictInsert p.name (field_type p, parameter_field p) a) acc

/-- Instantiation of the synthesized pydantic model, `cls(**assign_args)`:
each field is populated from the supplied keyword arguments when present
(after validation against its annotation) and from its default otherwise.
Pydantic gathers all field errors before raising; we keep the first. -/
def instantiateModel : List (String × (FieldType × FieldDefault)) →
    List (String × Value) → Except String (List (String × Value))
  | [], _ => .ok []
  | (n, (t, d)) :: rest, args =>
    match alookup n args with
    | some v =>
      match validateField t v with
      | .ok w => (instantiateModel rest args).map (fun tail => (n, w) :: tail)
      | .error e => .error e
    | none => (instantiateModel rest args).map (fun tail => (n, defaultValue d) :: tail)

/-- `Skill` (`skills.py`), restricted to the data the binding core reads:
the wrapped callable and the node list are irrelevant to `create_input` and
are omitted. -/
structure Skill where
  name : String
  description : Option String
  parameters : List SkillParameter
deriving Repr

/-- `_create_skill_arguments(skill, arguments)`: build the field dict,
filter the raw arguments down to declared parameter names, and instantiate
the synthesized model on the filtered keyword arguments. -/
def _create_skill_arguments (skill : Skill) (arguments : List (String × Value)) :
    Except String (List (String × Value)) :=
  let fields := fieldsFrom [] skill.parameters
  let valid_parameter_names := skill.parameters.map (fun p => p.name)
  let assign_args := arguments.filter (fun kv => valid_parameter_names.contains kv.1)
  instantiateModel fields assign_args

/-- `SkillInput`: the assistant id together with the generated argument
instance, whose attribute accesses we model by `alookup` on its field
list. -/
structure SkillInput where
  assistant_id : Option String
  arguments : List (String × Value)
deriving Repr

/-- `Skill.create_input(assistant_id=None, arguments=None)`: a falsy
`arguments` (either `None` or the empty dict) is replaced by the empty
dict, then the raw mapping is threaded through `_create_skill_arguments`. -/
def Skill.create_input (skill : Skill) (assistant_id : Option String)
    (arguments : Option (List (String × Value))) : Except String SkillInput :=
  let args := match arguments with
    | none => []
    | some a => a
  (_create_skill_arguments skill args).map
    (fun skill_arguments => ⟨assistant_id, skill_arguments⟩)

/-- The skill registered in `test_input_init.py`:
`metrics` multi-valued, `dim` single-valued. -/
def metricsParam : SkillParameter := ⟨"metrics", none, true, none, []⟩

/-- The single-valued `dim` parameter of the test skill. -/
def dimParam : SkillParameter := ⟨"dim", none, false, none, []⟩

/-- The `some_skill` registration from `test_input_init.py`. -/
def someSkill : Skill := ⟨"some_skill", none, [metricsParam, dimParam]⟩

/-- A `SkillParameter` with its advisory metadata (`constrained_to`,
`description`, `constrained_values`) erased. -/
def eraseConstraints (p : SkillParameter) : SkillParameter :=
  ⟨p.name, none, p.is_multi, none, []⟩

/-- A multi-valued parameter named `m`. -/
def mParam : SkillParameter := ⟨"m", none, true, none, []⟩

/-- Registration holding just `mParam`. -/
def multiSkill : Skill := ⟨"multi_skill", none, [mParam]⟩

/-- First of two same-named declarations: multi-valued `x`. -/
def dupXMulti : SkillParameter := ⟨"x", none, true, none, []⟩

/-- Second of two same-named declarations: single-valued `x`. -/
def dupXSingle : SkillParameter := ⟨"x", none, false, none, []⟩

/-- Registration declaring `x` twice, first multi-valued then single-valued. -/
def dupSkill : Skill := ⟨"dup_skill", none, [dupXMulti, dupXSingle]⟩

/-- A multi-valued parameter constrained to the values `["a"]` and the
domain tag `metric`. -/
def constrParam : SkillParameter := ⟨"m", some "metric", true, none, ["a"]⟩

/-- Registration holding just `constrParam`. -/
def constrSkill : Skill := ⟨"constr_skill", none, [constrParam]⟩

/-- A single-valued parameter with an allow-list, for exercising the
pass-through of out-of-domain values. -/
def constrDimParam : SkillParameter := ⟨"dim2", some "dimension", false, none, ["a"]⟩

/-- Registration holding just `constrDimParam`. -/
def constrDimSkill : Skill := ⟨"constr_dim_skill", none, [constrDimParam]⟩

/-- A field value in the allocation-instrumented model: either an inline
value or a reference to a heap cell holding a freshly allocated list
object. -/
inductive RValue where
  | val (v : Value)
  | ref (id : Nat)
deriving Repr

/-- A heap cell read in the instrumented model, `vlist` of the cell's
current contents (absent cells read as empty). -/
def interpretRValue (heap : List (List Value)) : RValue → Value
  | .val v => v
  | .ref i => .vlist (heap[i]?.getD [])

/-- `instantiateModel` instrumented with object identity for the
`default_factory=list` defaults: the heap is a list of list cells, a cell
id is an index into it, and each absent multi-valued field allocates a
fresh empty cell (appended at the end, id = previous heap length), exactly
as pydantic calls the factory once per instantiation.  Supplied values and
`None` defaults stay inline. -/
def instantiateModelH : List (String × (FieldType × FieldDefault)) →
    List (String × Value) → List (List Value) →
    Except String (List (String × RValue) × List (List Value))
  | [], _, heap => .ok ([], heap)
  | (n, (t, d)) :: rest, args, heap =>
    match alookup n args with
    | some v =>
      match validateField t v with
      | .ok w =>
        (instantiateModelH rest args heap).map (fun r => ((n, .val w) :: r.1, r.2))
      | .error e => .error e
    | none =>
      match d with
      | .defaultNone =>
        (instantiateModelH rest args heap).map
          (fun r => ((n, .val Value.vnone) :: r.1, r.2))
      | .factoryList =>
        (instantiateModelH rest args (heap ++ [[]])).map
          (fun r => ((n, .ref heap.length) :: r.1, r.2))

/-- `_create_skill_arguments` in the allocation-instrumented model. -/
def _create_skill_argumentsH (skill : Skill) (arguments : List (String × Value))
    (heap : List (List Value)) :
    Except String (List (String × RValue) × List (List Value)) :=
  instantiateModelH (fieldsFrom [] skill.parameters)
    (arguments.filter (fun kv => (skill.parameters.map (fun p => p.name)).contains kv.1))
    heap

/-- The last parameter of a declaration list carrying a given name, i.e. the
declaration whose field wins the dict-comprehension collision. -/
def lastDecl (k : String) : List SkillParameter → Option SkillParameter
  | [] => none
  | p :: rest =>
    match lastDecl k rest with
    | some q => some q
    | none => if p.name = k then some p else none

theorem alookup_mem {α : Type} {k : String} {v : α} {l : List (String × α)}
    (h : alookup k l = some v) : (k, v) ∈ l := by
  induction l with
  | nil => simp [alookup] at h
  | cons hd tl ih =>
    obtain ⟨k₀, v₀⟩ := hd
    by_cases hk : k₀ = k
    · subst hk
      simp [alookup] at h
      simp [h]
    · simp [alookup, hk] at h
      exact List.mem_cons_of_mem _ (ih h)

theorem alookup_eq_none_of_not_mem {α : Type} {k : String} {l : List (String × α)}
    (h : k ∉ l.map Prod.fst) : alookup k l = none := by
  induction l with
  | nil => rfl
  | cons hd tl ih =>
    obtain ⟨k₀, v₀⟩ := hd
    rw [List.map_cons, List.mem_cons] at h
    push_neg at h
    have hk : ¬ k₀ = k := fun hh => h.1 hh.symm
    simp [alookup, hk, ih h.2]

theorem not_mem_of_alookup_eq_none {α : Type} {k : String} {l : List (String × α)}
    (h : alookup k l = none) : k ∉ l.map Prod.fst := by
  induction l with
  | nil => simp
  | cons hd tl ih =>
    obtain ⟨k₀, v₀⟩ := hd
    by_cases hk : k₀ = k
    · subst hk; simp [alookup] at h
    · simp [alookup, hk] at h
      rw [List.map_cons, List.mem_cons]
      push_neg
      exact ⟨fun hh => hk hh.symm, ih h⟩

theorem alookup_dictInsert {α : Type} (a k : String) (v : α) (d : List (String × α)) :
    alookup a (dictInsert k v d) = if k = a then some v else alookup a d := by
  induction d with
  | nil => simp [dictInsert, alookup]
  | cons hd tl ih =>
    obtain ⟨k₀, v₀⟩ := hd
    by_cases hk : k₀ = k
    · subst hk
      by_cases ha : k₀ = a
      · subst ha; simp [dictInsert, alookup]
      · simp [dictInsert, alookup, ha]
    · by_cases ha : k₀ = a
      · subst ha
        have hka : ¬ k = k₀ := fun hh => hk hh.symm
        simp [dictInsert, alookup, hk, hka]
      · simp [dictInsert, alookup, hk, ha, ih]

theorem mem_keys_dictInsert {α : Type} (a k : String) (v : α) (d : List (String × α)) :
    a ∈ (dictInsert k v d).map Prod.fst ↔ a = k ∨ a ∈ d.map Prod.fst := by
  induction d with
  | nil => simp [dictInsert]
  | cons hd tl ih =>
    obtain ⟨k₀, v₀⟩ := hd
    by_cases hk : k₀ = k
    · subst hk
      simp [dictInsert]
    · simp [dictInsert, hk, ih]
      tauto

theorem mem_dictInsert {α : Type} {x : String × α} {k : String} {v : α}
    {d : List (String × α)} (h : x ∈ dictInsert k v d) : x = (k, v) ∨ x ∈ d := by
  induction d with
  | nil => simpa [dictInsert] using h
  | cons hd tl ih =>
    obtain ⟨k₀, v₀⟩ := hd
    by_cases hk : k₀ = k
    · subst hk
      simp [dictInsert] at h
      tauto
    · simp [dictInsert, hk] at h
      rcases h with h | h
      · simp [h]
      · rcases ih h with h' | h'
        · exact Or.inl h'
        · exact Or.inr (List.mem_cons_of_mem _ h')

theorem nodup_keys_dictInsert {α : Type} {k : String} {v : α} {d : List (String × α)}
    (h : (d.map Prod.fst).Nodup) : ((dictInsert k v d).map Prod.fst).Nodup := by
  induction d with
  | nil => simp [dictInsert]
  | cons hd tl ih =>
    obtain ⟨k₀, v₀⟩ := hd
    rw [List.map_cons, List.nodup_cons] at h
    by_cases hk : k₀ = k
    · subst hk
      have : dictInsert k₀ v ((k₀, v₀) :: tl) = (k₀, v) :: tl := by simp [dictInsert]
      rw [this, List.map_cons, List.nodup_cons]
      exact h
    · have : dictInsert k v ((k₀, v₀) :: tl) = (k₀, v₀) :: dictInsert k v tl := by
        simp [dictInsert, hk]
      rw [this, List.map_cons, List.nodup_cons]
      refine ⟨?_, ih h.2⟩
      intro hmem
      rcases (mem_keys_dictInsert k₀ k v tl).mp hmem with h' | h'
      · exact hk h'
      · exact h.1 h'

theorem alookup_fieldsFrom (k : String) (ps : List SkillParameter)
    (acc : List (String × (FieldType × FieldDefault))) :
    alookup k (fieldsFrom acc ps) =
      match lastDecl k ps with
      | some q => some (field_type q, parameter_field q)
      | none => alookup k acc := by
  induction ps generalizing acc with
  | nil => simp [fieldsFrom, lastDecl]
  | cons p rest ih =>
    rw [show fieldsFrom acc (p :: rest) =
          fieldsFrom (dictInsert p.name (field_type p, parameter_field p) acc) rest from rfl]
    rw [ih]
    cases hlast : lastDecl k rest with
    | some q => simp [lastDecl, hlast]
    | none =>
      by_cases hp : p.name = k
      · simp [lastDecl, hlast, hp, alookup_dictInsert]
      · have hpk : ¬ p.name = k := hp
        simp [lastDecl, hlast, hpk, alookup_dictInsert]

theorem mem_keys_fieldsFrom (k : String) (ps : List SkillParameter)
    (acc : List (String × (FieldType × FieldDefault))) :
    k ∈ (fieldsFrom acc ps).map Prod.fst ↔
      k ∈ acc.map Prod.fst ∨ k ∈ ps.map (fun p => p.name) := by
  induction ps generalizing acc with
  | nil => simp [fieldsFrom]
  | cons p rest ih =>
    rw [show fieldsFrom acc (p :: rest) =
          fieldsFrom (dictInsert p.name (field_type p, parameter_field p) acc) rest from rfl]
    rw [ih, mem_keys_dictInsert, List.map_cons, List.mem_cons]
    tauto

theorem mem_fieldsFrom {x : String × (FieldType × FieldDefault)}
    {ps : List SkillParameter} {acc : List (String × (FieldType × FieldDefault))}
    (h : x ∈ fieldsFrom acc ps) :
    x ∈ acc ∨ ∃ p ∈ ps, x = (p.name, (field_type p, parameter_field p)) := by
  induction ps generalizing acc with
  | nil => exact Or.inl h
  | cons p rest ih =>
    rw [show fieldsFrom acc (p :: rest) =
          fieldsFrom (dictInsert p.name (field_type p, parameter_field p) acc) rest from rfl] at h
    rcases ih h with h' | h'
    · rcases mem_dictInsert h' with h'' | h''
      · refine Or.inr ⟨p, by simp, h''⟩
      · exact Or.inl h''
    · obtain ⟨q, hq, hx⟩ := h'
      exact Or.inr ⟨q, List.mem_cons_of_mem _ hq, hx⟩

theorem nodup_keys_fieldsFrom (ps : List SkillParameter)
    (acc : List (String × (FieldType × FieldDefault)))
    (h : (acc.map Prod.fst).Nodup) : ((fieldsFrom acc ps).map Prod.fst).Nodup := by
  induction ps generalizing acc with
  | nil => exact h
  | cons p rest ih =>
    exact ih _ (nodup_keys_dictInsert h)

theorem lastDecl_mem {k : String} {ps : List SkillParameter} {q : SkillParameter}
    (h : lastDecl k ps = some q) : q ∈ ps ∧ q.name = k := by
  induction ps with
  | nil => simp [lastDecl] at h
  | cons p rest ih =>
    rw [show lastDecl k (p :: rest) =
          (match lastDecl k rest with
           | some q => some q
           | none => if p.name = k then some p else none) from rfl] at h
    cases hlast : lastDecl k rest with
    | some q₀ =>
      rw [hlast] at h
      cases h
      obtain ⟨hq, hn⟩ := ih hlast
      exact ⟨List.mem_cons_of_mem _ hq, hn⟩
    | none =>
      rw [hlast] at h
      by_cases hp : p.name = k
      · simp [hp] at h
        subst h
        exact ⟨by simp, hp⟩
      · simp [hp] at h

theorem lastDecl_of_nodup {ps : List SkillParameter} {p : SkillParameter}
    (hnd : (ps.map (fun q => q.name)).Nodup) (hp : p ∈ ps) :
    lastDecl p.name ps = some p := by
  induction ps with
  | nil => simp at hp
  | cons q rest ih =>
    rw [List.map_cons, List.nodup_cons] at hnd
    rcases List.mem_cons.mp hp with h | h
    · subst h
      have : p.name ∉ rest.map (fun q => q.name) := hnd.1
      have hnone : lastDecl p.name rest = none := by
        cases hlast : lastDecl p.name rest with
        | none => rfl
        | some q₀ =>
          obtain ⟨hq₀, hn⟩ := lastDecl_mem hlast
          exact absurd (hn ▸ List.mem_map_of_mem (fun q => q.name) hq₀) this
      simp [lastDecl, hnone]
    · have := ih hnd.2 h
      simp [lastDecl, this]

theorem lastDecl_isSome_iff (k : String) (ps : List SkillParameter) :
    (lastDecl k ps).isSome = true ↔ k ∈ ps.map (fun p => p.name) := by
  induction ps with
  | nil => simp [lastDecl]
  | cons p rest ih =>
    cases hlast : lastDecl k rest with
    | some q =>
      obtain ⟨hq, hn⟩ := lastDecl_mem hlast
      have h1 : lastDecl k (p :: rest) = some q := by simp [lastDecl, hlast]
      rw [h1, List.map_cons, List.mem_cons]
      have h2 : q.name ∈ rest.map (fun p => p.name) := List.mem_map_of_mem _ hq
      simp only [Option.isSome_some, true_iff]
      exact Or.inr (hn ▸ h2)
    | none =>
      have h1 : lastDecl k (p :: rest) = if p.name = k then some p else none := by
        simp [lastDecl, hlast]
      rw [h1, List.map_cons, List.mem_cons]
      by_cases hp : p.name = k
      · simp [hp]
      · rw [if_neg hp]
        have hmem : k ∉ rest.map (fun p => p.name) := by
          rw [← ih, hlast]
          simp
        constructor
        · intro hh
          simp at hh
        · rintro (hh | hh)
          · exact absurd hh.symm hp
          · exact absurd hh hmem

theorem validateField_ok {t : FieldType} {v w : Value}
    (h : validateField t v = .ok w) : w = v := by
  cases t with
  | listAny =>
    cases v with
    | vlist xs => simpa [validateField] using h.symm
    | vnone => simp [validateField] at h
    | vstr s => simp [validateField] at h
    | vint n => simp [validateField] at h
    | vbool b => simp [validateField] at h
  | anyOrNone => simpa [validateField] using h.symm

theorem instantiateModel_cons_ok {args : List (String × Value)} {n : String}
    {t : FieldType} {d : FieldDefault} {rest : List (String × (FieldType × FieldDefault))}
    {v w : Value} (halook : alookup n args = some v)
    (hval : validateField t v = .ok w) :
    instantiateModel ((n, (t, d)) :: rest) args =
      (instantiateModel rest args).map (fun tail => (n, w) :: tail) := by
  simp [instantiateModel, halook, hval]

theorem instantiateModel_cons_err {args : List (String × Value)} {n : String}
    {t : FieldType} {d : FieldDefault} {rest : List (String × (FieldType × FieldDefault))}
    {v : Value} {e : String} (halook : alookup n args = some v)
    (hval : validateField t v = .error e) :
    instantiateModel ((n, (t, d)) :: rest) args = .error e := by
  simp [instantiateModel, halook, hval]

theorem instantiateModel_cons_default {args : List (String × Value)} {n : String}
    {t : FieldType} {d : FieldDefault} {rest : List (String × (FieldType × FieldDefault))}
    (halook : alookup n args = none) :
    instantiateModel ((n, (t, d)) :: rest) args =
      (instantiateModel rest args).map (fun tail => (n, defaultValue d) :: tail) := by
  simp [instantiateModel, halook]

theorem instantiateModel_keys {fields : List (String × (FieldType × FieldDefault))}
    {args inst : List (String × Value)}
    (h : instantiateModel fields args = .ok inst) :
    inst.map Prod.fst = fields.map Prod.fst := by
  induction fields generalizing inst with
  | nil =>
    simp [instantiateModel] at h
    simp [← h]
  | cons hd rest ih =>
    obtain ⟨n, t, d⟩ := hd
    cases halook : alookup n args with
    | some v =>
      cases hval : validateField t v with
      | ok w =>
        rw [instantiateModel_cons_ok halook hval] at h
        cases hrest : instantiateModel rest args with
        | ok tail =>
          rw [hrest] at h
          simp [Except.map] at h
          subst h
          simp [ih hrest]
        | error e =>
          rw [hrest] at h
          simp [Except.map] at h
      | error e =>
        rw [instantiateModel_cons_err halook hval] at h
        simp at h
    | none =>
      rw [instantiateModel_cons_default halook] at h
      cases hrest : instantiateModel rest args with
      | ok tail =>
        rw [hrest] at h
        simp [Except.map] at h
        subst h
        simp [ih hrest]
      | error e =>
        rw [hrest] at h
        simp [Except.map] at h

theorem instantiateModel_alookup {fields : List (String × (FieldType × FieldDefault))}
    {args inst : List (String × Value)}
    (h : instantiateModel fields args = .ok inst)
    {n : String} {t : FieldType} {d : FieldDefault}
    (hf : alookup n fields = some (t, d)) :
    alookup n inst = some
      (match alookup n args with
       | some v => v
       | none => defaultValue d) := by
  induction fields generalizing inst with
  | nil => simp [alookup] at hf
  | cons hd rest ih =>
    obtain ⟨n₀, t₀, d₀⟩ := hd
    cases halook : alookup n₀ args with
    | some v =>
      cases hval : validateField t₀ v with
      | ok w =>
        rw [instantiateModel_cons_ok halook hval] at h
        cases hrest : instantiateModel rest args with
        | ok tail =>
          rw [hrest] at h
          simp [Except.map] at h
          subst h
          by_cases hn : n₀ = n
          · subst hn
            simp [alookup] at hf ⊢
            rw [halook]
            exact validateField_ok hval
          · simp [alookup, hn] at hf ⊢
            exact ih hrest hf
        | error e =>
          rw [hrest] at h
          simp [Except.map] at h
      | error e =>
        rw [instantiateModel_cons_err halook hval] at h
        simp at h
    | none =>
      rw [instantiateModel_cons_default halook] at h
      cases hrest : instantiateModel rest args with
      | ok tail =>
        rw [hrest] at h
        simp [Except.map] at h
        subst h
        by_cases hn : n₀ = n
        · subst hn
          simp [alookup] at hf ⊢
          rw [halook]
          simp [hf.2]
        · simp [alookup, hn] at hf ⊢
          exact ih hrest hf
      | error e =>
        rw [hrest] at h
        simp [Except.map] at h

theorem instantiateModel_ok {fields : List (String × (FieldType × FieldDefault))}
    {args : List (String × Value)}
    (h : ∀ n t d v, (n, (t, d)) ∈ fields → alookup n args = some v →
      (validateField t v).isOk = true) :
    ∃ inst, instantiateModel fields args = .ok inst := by
  induction fields with
  | nil => exact ⟨[], rfl⟩
  | cons hd rest ih =>
    obtain ⟨n, t, d⟩ := hd
    obtain ⟨tail, htail⟩ := ih (fun n' t' d' v hmem hl =>
      h n' t' d' v (List.mem_cons_of_mem _ hmem) hl)
    cases halook : alookup n args with
    | some v =>
      have hok := h n t d v (by simp) halook
      cases hval : validateField t v with
      | ok w =>
        refine ⟨(n, w) :: tail, ?_⟩
        rw [instantiateModel_cons_ok halook hval, htail]
        rfl
      | error e =>
        rw [hval] at hok
        simp [Except.isOk, Except.toBool] at hok
    | none =>
      refine ⟨(n, defaultValue d) :: tail, ?_⟩
      rw [instantiateModel_cons_default halook, htail]
      rfl

theorem alookup_filter_of_contains {names : List String} {k : String}
    {args : List (String × Value)} (hk : names.contains k = true) :
    alookup k (args.filter (fun kv => names.contains kv.1)) = alookup k args := by
  induction args with
  | nil => rfl
  | cons hd tl ih =>
    obtain ⟨k₀, v₀⟩ := hd
    by_cases hmem : names.contains k₀ = true
    · rw [List.filter_cons_of_pos (by simpa using hmem)]
      simp only [alookup]
      by_cases hk₀ : k₀ = k
      · simp only [if_pos hk₀]
      · simp only [if_neg hk₀]
        exact ih
    · rw [List.filter_cons_of_neg (by simpa using hmem)]
      have hk₀ : ¬ k₀ = k := fun hh => hmem (hh ▸ hk)
      simp only [alookup]
      rw [if_neg hk₀]
      exact ih

theorem alookup_filter_none {pr : String × Value → Bool} {k : String}
    {args : List (String × Value)} (h : alookup k args = none) :
    alookup k (args.filter pr) = none := by
  induction args with
  | nil => rfl
  | cons hd tl ih =>
    obtain ⟨k₀, v₀⟩ := hd
    by_cases hk₀ : k₀ = k
    · subst hk₀; simp [alookup] at h
    · simp only [alookup, if_neg hk₀] at h
      by_cases hpr : pr (k₀, v₀) = true
      · rw [List.filter_cons_of_pos (by simpa using hpr)]
        simp only [alookup]
        rw [if_neg hk₀]
        exact ih h
      · rw [List.filter_cons_of_neg (by simpa using hpr)]
        exact ih h

theorem filter_drop_unknown {names : List String} {k : String}
    {args : List (String × Value)} (hk : names.contains k = false) :
    (args.filter (fun kv => kv.1 != k)).filter (fun kv => names.contains kv.1) =
      args.filter (fun kv => names.contains kv.1) := by
  induction args with
  | nil => rfl
  | cons hd tl ih =>
    obtain ⟨k₀, v₀⟩ := hd
    by_cases hk₀ : k₀ = k
    · subst hk₀
      rw [List.filter_cons_of_neg (by simp)]
      rw [List.filter_cons_of_neg (by simpa using hk)]
      exact ih
    · rw [List.filter_cons_of_pos (by simpa using hk₀)]
      by_cases hmem : names.contains k₀ = true
      · rw [List.filter_cons_of_pos (by simpa using hmem),
          List.filter_cons_of_pos (by simpa using hmem), ih]
      · rw [List.filter_cons_of_neg (by simpa using hmem),
          List.filter_cons_of_neg (by simpa using hmem), ih]

/-- ASCII letters and ASCII digits are disjoint character classes. -/
theorem alpha_isDigit_false (c : Char) (h : c.isAlpha = true) : c.isDigit = false := by
  simp [Char.isAlpha, Char.isUpper, Char.isLower, Char.isDigit, UInt32.le_def,
    UInt32.lt_def, BitVec.le_def, BitVec.lt_def] at h ⊢
  omega

theorem is_valid_iff_spec (s : String) :
    is_valid_parameter_name s = true ↔ specValidName s := by
  unfold is_valid_parameter_name specValidName pyIsIdentifier
  cases hd : s.data with
  | nil => simp
  | cons c cs =>
    simp only [Bool.and_eq_true, Bool.not_eq_true', List.all_eq_true,
      decide_eq_false_iff_not, ne_eq, List.cons_ne_nil,
      not_false_eq_true, true_and, List.head?_cons, Option.some.injEq,
      List.mem_cons, isIdentStart, isIdentChar, Char.isAlphanum, Bool.or_eq_true,
      decide_eq_true_eq]
    constructor
    · rintro ⟨⟨hc, hcs⟩, hkw⟩
      refine ⟨?_, ?_, by simpa using hkw⟩
      · intro c' hc'
        rcases hc' with hc' | hc'
        · subst hc'
          tauto
        · rcases hcs _ hc' with (h | h) | h <;> tauto
      · intro c' hc'
        subst hc'
        rcases hc with h | h
        · exact alpha_isDigit_false _ h
        · subst h; decide
    · rintro ⟨hall, hhead, hkw⟩
      refine ⟨⟨?_, ?_⟩, by simpa using hkw⟩
      · rcases hall c (Or.inl rfl) with h | h | h
        · tauto
        · rw [hhead c rfl] at h; cases h
        · tauto
      · intro c' hc'
        rcases hall c' (Or.inr hc') with h | h | h <;> tauto

/-- Binding succeeds whenever every supplied value destined for a
multi-valued field is a list: the only validation the synthesized model
performs is the list check on `list[Any]` fields. -/
theorem create_args_ok (sk : Skill) (args : List (String × Value))
    (hmulti : ∀ kv ∈ args, ∀ p ∈ sk.parameters,
      p.name = kv.1 → p.is_multi = true → kv.2.isList = true) :
    ∃ inst, _create_skill_arguments sk args = .ok inst := by
  apply instantiateModel_ok
  intro n t d v hmem halook
  rcases mem_fieldsFrom hmem with h | h
  · simp at h
  · obtain ⟨p, hp, hx⟩ := h
    obtain ⟨hn, ht, hd⟩ : n = p.name ∧ t = field_type p ∧ d = parameter_field p := by
      refine ⟨congrArg Prod.fst hx, ?_, ?_⟩
      · exact congrArg (fun y => y.2.1) hx
      · exact congrArg (fun y => y.2.2) hx
    cases hmul : p.is_multi with
    | false =>
      have : t = FieldType.anyOrNone := by rw [ht, field_type, hmul]; rfl
      rw [this]
      rfl
    | true =>
      have hv : (n, v) ∈ args :=
        List.mem_of_mem_filter (alookup_mem halook)
      have hlist : v.isList = true := hmulti (n, v) hv p hp hn.symm hmul
      have : t = FieldType.listAny := by rw [ht, field_type, hmul]; rfl
      rw [this]
      cases v with
      | vlist xs => rfl
      | vnone => simp [Value.isList] at hlist
      | vstr s => simp [Value.isList] at hlist
      | vint n' => simp [Value.isList] at hlist
      | vbool b => simp [Value.isList] at hlist

/-- The fields of a successfully bound instance are exactly the declared
parameter names (as a set). -/
theorem create_args_keys {sk : Skill} {args inst : List (String × Value)}
    (h : _create_skill_arguments sk args = .ok inst) (k : String) :
    k ∈ inst.map Prod.fst ↔ k ∈ sk.parameters.map (fun p => p.name) := by
  have hkeys := instantiateModel_keys h
  rw [hkeys]
  have := mem_keys_fieldsFrom k sk.parameters []
  simpa using this

/-- A successfully bound instance carries every supplied value for a
declared name through unchanged. -/
theorem create_args_supplied {sk : Skill} {args inst : List (String × Value)}
    (h : _create_skill_arguments sk args = .ok inst)
    {p : SkillParameter} (hp : p ∈ sk.parameters) {v : Value}
    (hv : alookup p.name args = some v) :
    alookup p.name inst = some v := by
  have hnames : p.name ∈ sk.parameters.map (fun q => q.name) :=
    List.mem_map_of_mem _ hp
  have hsome : (lastDecl p.name sk.parameters).isSome = true :=
    (lastDecl_isSome_iff _ _).mpr hnames
  obtain ⟨q, hq⟩ := Option.isSome_iff_exists.mp hsome
  have hfield : alookup p.name (fieldsFrom [] sk.parameters) =
      some (field_type q, parameter_field q) := by
    rw [alookup_fieldsFrom, hq]
  have hres := instantiateModel_alookup h hfield
  rw [alookup_filter_of_contains (by simpa using hnames), hv] at hres
  exact hres

/-- A successfully bound instance gives every absent parameter its default,
namely the default of the last declaration carrying that name. -/
theorem create_args_default {sk : Skill} {args inst : List (String × Value)}
    (h : _create_skill_arguments sk args = .ok inst)
    {q : SkillParameter} (hq : lastDecl k sk.parameters = some q)
    (habs : alookup k args = none) :
    alookup k inst = some (defaultValue (parameter_field q)) := by
  have hfield : alookup k (fieldsFrom [] sk.parameters) =
      some (field_type q, parameter_field q) := by
    rw [alookup_fieldsFrom, hq]
  have hres := instantiateModel_alookup h hfield
  rw [alookup_filter_none habs] at hres
  exact hres

theorem fieldsFrom_erase (ps : List SkillParameter)
    (acc : List (String × (FieldType × FieldDefault))) :
    fieldsFrom acc (ps.map eraseConstraints) = fieldsFrom acc ps := by
  induction ps generalizing acc with
  | nil => rfl
  | cons p rest ih => exact ih _

/-- Claim C1 as stated is false: binding can raise even though no key is
missing or unknown.  With the single multi-valued declaration `m`, the raw
mapping `{"m": "x"}` supplies a non-list for a `list[Any]` field and the
synthesized model's validation fails. -/
theorem C1_counterexample :
    (_create_skill_arguments multiSkill [("m", Value.vstr "x")]).isOk = false := rfl

/-- Claim C1 (amended): for every declaration set and every raw mapping in
which each value supplied for a multi-valued parameter is a list, binding
succeeds and the instance's field names are exactly the declared names (as
a set: no more, no fewer). -/
theorem C1_bind_total_on_wellshaped (sk : Skill) (args : List (String × Value))
    (hmulti : ∀ kv ∈ args, ∀ p ∈ sk.parameters,
      p.name = kv.1 → p.is_multi = true → kv.2.isList = true) :
    ∃ inst, _create_skill_arguments sk args = .ok inst ∧
      ∀ k, k ∈ inst.map Prod.fst ↔ k ∈ sk.parameters.map (fun p => p.name) := by
  obtain ⟨inst, hinst⟩ := create_args_ok sk args hmulti
  exact ⟨inst, hinst, fun k => create_args_keys hinst k⟩

/-- Witness for C1 (amended) at the registration and arguments of
`test_input_init.py`. -/
theorem C1_witness :
    ∃ inst, _create_skill_arguments someSkill
        [("metrics", Value.vlist [Value.vstr "sales"])] = .ok inst ∧
      ∀ k, k ∈ inst.map Prod.fst ↔ k ∈ someSkill.parameters.map (fun p => p.name) :=
  C1_bind_total_on_wellshaped someSkill [("metrics", Value.vlist [Value.vstr "sales"])]
    (by
      intro kv hkv p hp hname hmul
      rw [List.mem_singleton] at hkv
      subst hkv
      rfl)

/-- Claim C2 as stated is false when two declarations share a name: with
`x` declared first multi-valued and then single-valued, and an empty raw
mapping, the multi-valued declaration is absent from the mapping yet the
bound field for `x` is the absence sentinel, not the empty list, because
the single-valued duplicate wrote the field last. -/
theorem C2_counterexample :
    dupXMulti ∈ dupSkill.parameters ∧ dupXMulti.is_multi = true ∧
    alookup dupXMulti.name ([] : List (String × Value)) = none ∧
    (_create_skill_arguments dupSkill []).map (alookup "x") = .ok (some Value.vnone) ∧
    Value.vnone ≠ Value.vlist [] :=
  ⟨List.mem_cons_self _ _, rfl, rfl, rfl, fun h => Value.noConfusion h⟩

/-- Claim C2 (amended): provided no two declarations share a name, every
declared parameter absent from the raw mapping is bound to the empty list
when multi-valued and to the absence sentinel otherwise. -/
theorem C2_default_values (sk : Skill) (args inst : List (String × Value))
    (hnd : (sk.parameters.map (fun p => p.name)).Nodup)
    (p : SkillParameter) (hp : p ∈ sk.parameters)
    (habs : alookup p.name args = none)
    (hok : _create_skill_arguments sk args = .ok inst) :
    alookup p.name inst =
      some (if p.is_multi then Value.vlist [] else Value.vnone) := by
  have hlast := lastDecl_of_nodup hnd hp
  have hdef := create_args_default hok hlast habs
  rw [hdef]
  cases hm : p.is_multi <;> simp [parameter_field, defaultValue, hm]

/-- Witness for C2 (amended): in the test registration with an empty raw
mapping, `metrics` (multi-valued, absent) is bound to the empty list. -/
theorem C2_witness :
    alookup metricsParam.name
        [("metrics", Value.vlist []), ("dim", Value.vnone)] =
      some (if metricsParam.is_multi then Value.vlist [] else Value.vnone) :=
  C2_default_values someSkill [] [("metrics", Value.vlist []), ("dim", Value.vnone)]
    (by decide) metricsParam (List.mem_cons_self _ _) rfl rfl

/-- Claim C3 as stated is false: a raw mapping containing an unknown key
need not bind successfully, because another (declared) key may carry an
ill-shaped value.  Here `junk` is unknown, `m` is declared multi-valued,
and the non-list value for `m` makes binding raise. -/
theorem C3_counterexample :
    ("junk" ∉ multiSkill.parameters.map (fun p => p.name)) ∧
    (_create_skill_arguments multiSkill
      [("m", Value.vstr "x"), ("junk", Value.vint 1)]).isOk = false :=
  ⟨by decide, rfl⟩

/-- Claim C3 (amended): an unknown key is silently dropped before
construction: binding behaves exactly as if the key were not supplied at
all (in particular it succeeds or fails for reasons independent of that
key), and whenever binding succeeds the resulting instance has no field
for the unknown key. -/
theorem C3_unknown_key_dropped (sk : Skill) (args : List (String × Value))
    (k : String) (hk : k ∉ sk.parameters.map (fun p => p.name)) :
    _create_skill_arguments sk args =
      _create_skill_arguments sk (args.filter (fun kv => kv.1 != k)) ∧
    ∀ inst, _create_skill_arguments sk args = .ok inst → alookup k inst = none := by
  constructor
  · have hck : (sk.parameters.map (fun p => p.name)).contains k = false := by
      simpa using hk
    show instantiateModel (fieldsFrom [] sk.parameters)
        (args.filter (fun kv => (sk.parameters.map (fun p => p.name)).contains kv.1)) =
      instantiateModel (fieldsFrom [] sk.parameters)
        ((args.filter (fun kv => kv.1 != k)).filter
          (fun kv => (sk.parameters.map (fun p => p.name)).contains kv.1))
    rw [filter_drop_unknown hck]
  · intro inst hok
    apply alookup_eq_none_of_not_mem
    intro hmem
    exact hk ((create_args_keys hok k).mp hmem)

/-- Witness for C3 (amended) at a concrete unknown key. -/
theorem C3_witness :
    (_create_skill_arguments someSkill [("junk", Value.vint 7)] =
      _create_skill_arguments someSkill
        ([("junk", Value.vint 7)].filter (fun kv => kv.1 != "junk"))) ∧
    alookup "junk" [("metrics", Value.vlist []), ("dim", Value.vnone)] = none :=
  ⟨(C3_unknown_key_dropped someSkill [("junk", Value.vint 7)] "junk" (by decide)).1,
   (C3_unknown_key_dropped someSkill [("junk", Value.vint 7)] "junk" (by decide)).2
     [("metrics", Value.vlist []), ("dim", Value.vnone)] rfl⟩

/-- Claim C4: the name validator accepts a string exactly when it is
non-empty, made of letters, digits and underscores, does not start with a
digit, and is no Python keyword; `SkillParameter` construction fails
exactly when the validator rejects; `class` is rejected and `metric_1`
accepted. -/
theorem C4_name_validator :
    (∀ s, is_valid_parameter_name s = true ↔ specValidName s) ∧
    (∀ nm c m d cv, (SkillParameter.make nm c m d cv).isOk = is_valid_parameter_name nm) ∧
    (SkillParameter.make "class" none false none []).isOk = false ∧
    (SkillParameter.make "metric_1" none false none []).isOk = true := by
  refine ⟨is_valid_iff_spec, ?_, by decide, by decide⟩
  intro nm c m d cv
  unfold SkillParameter.make
  by_cases h : is_valid_parameter_name nm = true
  · rw [if_pos h, h]; rfl
  · rw [if_neg h]
    simp only [Bool.not_eq_true] at h
    rw [h]; rfl

/-- Claim C5: with the test declarations, `{"metrics": ["sales"]}` binds to
`metrics == ["sales"]`, `dim == None`, and an absent raw mapping binds to
`metrics == []`, `dim == None`. -/
theorem C5_test_scenarios :
    ((someSkill.create_input none (some [("metrics", Value.vlist [Value.vstr "sales"])])).map
        (fun si => (alookup "metrics" si.arguments, alookup "dim" si.arguments)) =
      .ok (some (Value.vlist [Value.vstr "sales"]), some Value.vnone)) ∧
    ((someSkill.create_input none none).map
        (fun si => (alookup "metrics" si.arguments, alookup "dim" si.arguments)) =
      .ok (some (Value.vlist []), some Value.vnone)) := ⟨rfl, rfl⟩

/-- Claim C6: duplicate declaration names collide silently under the dict
comprehension; the synthesized schema holds exactly one field for the
duplicated name, and its type and default are those of the last
declaration carrying that name. -/
theorem C6_duplicate_last_wins (sk : Skill) (k : String)
    (hdup : 2 ≤ (sk.parameters.map (fun p => p.name)).count k) :
    ((fieldsFrom [] sk.parameters).map Prod.fst).count k = 1 ∧
    ∃ q, lastDecl k sk.parameters = some q ∧ q ∈ sk.parameters ∧ q.name = k ∧
      alookup k (fieldsFrom [] sk.parameters) =
        some (field_type q, parameter_field q) := by
  have hmem : k ∈ sk.parameters.map (fun p => p.name) := by
    rw [← List.count_pos_iff]
    omega
  have hsome : (lastDecl k sk.parameters).isSome = true :=
    (lastDecl_isSome_iff _ _).mpr hmem
  obtain ⟨q, hq⟩ := Option.isSome_iff_exists.mp hsome
  obtain ⟨hqmem, hqname⟩ := lastDecl_mem hq
  refine ⟨?_, q, hq, hqmem, hqname, ?_⟩
  · apply List.count_eq_one_of_mem
    · exact nodup_keys_fieldsFrom _ _ (by simp)
    · rw [mem_keys_fieldsFrom]
      exact Or.inr hmem
  · rw [alookup_fieldsFrom, hq]

/-- Witness for C6 at the registration declaring `x` twice. -/
theorem C6_witness :
    ((fieldsFrom [] dupSkill.parameters).map Prod.fst).count "x" = 1 ∧
    ∃ q, lastDecl "x" dupSkill.parameters = some q ∧ q ∈ dupSkill.parameters ∧
      q.name = "x" ∧
      alookup "x" (fieldsFrom [] dupSkill.parameters) =
        some (field_type q, parameter_field q) :=
  C6_duplicate_last_wins dupSkill "x" (by decide)

/-- Claim C7 as stated is false: with the multi-valued parameter `m`
constrained to the allow-list `["a"]`, supplying the out-of-domain bare
string `"z"` makes binding raise (for shape, not domain, reasons), so
binding does not succeed for every out-of-domain supply. -/
theorem C7_counterexample :
    constrParam.constrained_values ≠ [] ∧
    ("z" ∉ constrParam.constrained_values) ∧
    (_create_skill_arguments constrSkill [("m", Value.vstr "z")]).isOk = false :=
  ⟨by decide, by decide, rfl⟩

/-- Claim C7 (amended): `constrained_to` and `constrained_values` are never
consulted during binding: erasing all advisory metadata from the
declarations leaves the binding function unchanged, and whenever binding
succeeds each supplied value for a declared parameter is held verbatim in
the instance, in or out of any declared domain. -/
theorem C7_constraints_not_enforced (sk : Skill) (args : List (String × Value)) :
    _create_skill_arguments
        ⟨sk.name, sk.description, sk.parameters.map eraseConstraints⟩ args =
      _create_skill_arguments sk args ∧
    ∀ inst, _create_skill_arguments sk args = .ok inst →
      ∀ p ∈ sk.parameters, ∀ v, alookup p.name args = some v →
        alookup p.name inst = some v := by
  constructor
  · unfold _create_skill_arguments
    have h1 : fieldsFrom [] (sk.parameters.map eraseConstraints) =
        fieldsFrom [] sk.parameters := fieldsFrom_erase _ _
    have h2 : (sk.parameters.map eraseConstraints).map (fun p => p.name) =
        sk.parameters.map (fun p => p.name) := by
      simp [eraseConstraints]
    simp only [h1, h2]
  · intro inst hok p hp v hv
    exact create_args_supplied hok hp hv

/-- Witness for C7 (amended): the single-valued parameter `dim2` with
allow-list `["a"]` receives the out-of-domain value `"z"` verbatim. -/
theorem C7_witness :
    (_create_skill_arguments
        ⟨constrDimSkill.name, constrDimSkill.description,
          constrDimSkill.parameters.map eraseConstraints⟩ [("dim2", Value.vstr "z")] =
      _create_skill_arguments constrDimSkill [("dim2", Value.vstr "z")]) ∧
    alookup constrDimParam.name [("dim2", Value.vstr "z")] = some (Value.vstr "z") ∧
    alookup constrDimParam.name [("dim2", Value.vstr "z")] = some (Value.vstr "z") :=
  ⟨(C7_constraints_not_enforced constrDimSkill [("dim2", Value.vstr "z")]).1,
   rfl,
   (C7_constraints_not_enforced constrDimSkill [("dim2", Value.vstr "z")]).2
     [("dim2", Value.vstr "z")] rfl constrDimParam (List.mem_cons_self _ _)
     (Value.vstr "z") rfl⟩

/-- Claim C9: there are a declaration set and a raw mapping whose every key
is declared for which binding raises: a bare string supplied for the
multi-valued `m` fails the `list[Any]` validation of the synthesized
model. -/
theorem C9_shape_validation_failure :
    (([("m", Value.vstr "oops")].map Prod.fst).all
      (fun k => (multiSkill.parameters.map (fun p => p.name)).contains k)) = true ∧
    _create_skill_arguments multiSkill [("m", Value.vstr "oops")] =
      .error "Input should be a valid list" := ⟨rfl, rfl⟩

/-- Claim C10: a value supplied for a single-valued declared parameter is
passed through to the bound instance unchanged, whatever its type. -/
theorem C10_single_passthrough (sk : Skill) (args inst : List (String × Value))
    (p : SkillParameter) (hp : p ∈ sk.parameters) (_hsingle : p.is_multi = false)
    (v : Value) (hv : alookup p.name args = some v)
    (hok : _create_skill_arguments sk args = .ok inst) :
    alookup p.name inst = some v :=
  create_args_supplied hok hp hv

theorem instantiateModelH_cons_okH {args : List (String × Value)} {n : String}
    {t : FieldType} {d : FieldDefault} {rest : List (String × (FieldType × FieldDefault))}
    {heap : List (List Value)} {v w : Value} (halook : alookup n args = some v)
    (hval : validateField t v = .ok w) :
    instantiateModelH ((n, (t, d)) :: rest) args heap =
      (instantiateModelH rest args heap).map (fun r => ((n, .val w) :: r.1, r.2)) := by
  simp [instantiateModelH, halook, hval]

theorem instantiateModelH_cons_errH {args : List (String × Value)} {n : String}
    {t : FieldType} {d : FieldDefault} {rest : List (String × (FieldType × FieldDefault))}
    {heap : List (List Value)} {v : Value} {e : String} (halook : alookup n args = some v)
    (hval : validateField t v = .error e) :
    instantiateModelH ((n, (t, d)) :: rest) args heap = .error e := by
  simp [instantiateModelH, halook, hval]

theorem instantiateModelH_cons_noneH {args : List (String × Value)} {n : String}
    {t : FieldType} {rest : List (String × (FieldType × FieldDefault))}
    {heap : List (List Value)} (halook : alookup n args = none) :
    instantiateModelH ((n, (t, FieldDefault.defaultNone)) :: rest) args heap =
      (instantiateModelH rest args heap).map
        (fun r => ((n, .val Value.vnone) :: r.1, r.2)) := by
  simp [instantiateModelH, halook]

theorem instantiateModelH_cons_factoryH {args : List (String × Value)} {n : String}
    {t : FieldType} {rest : List (String × (FieldType × FieldDefault))}
    {heap : List (List Value)} (halook : alookup n args = none) :
    instantiateModelH ((n, (t, FieldDefault.factoryList)) :: rest) args heap =
      (instantiateModelH rest args (heap ++ [[]])).map
        (fun r => ((n, .ref heap.length) :: r.1, r.2)) := by
  simp [instantiateModelH, halook]

/-- The instrumented instantiation only ever grows the heap, and never
touches any cell that already existed when it started. -/
theorem instantiateModelH_heap_mono
    {fields : List (String × (FieldType × FieldDefault))}
    {args : List (String × Value)} {heap heap' : List (List Value)}
    {inst : List (String × RValue)}
    (h : instantiateModelH fields args heap = .ok (inst, heap')) :
    heap.length ≤ heap'.length ∧ ∀ i, i < heap.length → heap'[i]? = heap[i]? := by
  induction fields generalizing heap inst heap' with
  | nil =>
    simp [instantiateModelH] at h
    rw [h.2]
    exact ⟨le_refl _, fun i _ => rfl⟩
  | cons hd rest ih =>
    obtain ⟨n, t, d⟩ := hd
    cases halook : alookup n args with
    | some v =>
      cases hval : validateField t v with
      | ok w =>
        rw [instantiateModelH_cons_okH halook hval] at h
        cases hrest : instantiateModelH rest args heap with
        | ok r =>
          obtain ⟨tail, hp⟩ := r
          rw [hrest] at h
          simp [Except.map] at h
          obtain ⟨h1, h2⟩ := h
          subst h2
          exact ih hrest
        | error e =>
          rw [hrest] at h
          simp [Except.map] at h
      | error e =>
        rw [instantiateModelH_cons_errH halook hval] at h
        simp at h
    | none =>
      cases d with
      | defaultNone =>
        rw [instantiateModelH_cons_noneH halook] at h
        cases hrest : instantiateModelH rest args heap with
        | ok r =>
          obtain ⟨tail, hp⟩ := r
          rw [hrest] at h
          simp [Except.map] at h
          obtain ⟨h1, h2⟩ := h
          subst h2
          exact ih hrest
        | error e =>
          rw [hrest] at h
          simp [Except.map] at h
      | factoryList =>
        rw [instantiateModelH_cons_factoryH halook] at h
        cases hrest : instantiateModelH rest args (heap ++ [[]]) with
        | ok r =>
          obtain ⟨tail, hp⟩ := r
          rw [hrest] at h
          simp [Except.map] at h
          obtain ⟨h1, h2⟩ := h
          subst h2
          obtain ⟨hlen, hpres⟩ := ih hrest
          constructor
          · simp at hlen
            omega
          · intro i hi
            rw [hpres i (by simp; omega)]
            rw [List.getElem?_append, if_pos hi]
        | error e =>
          rw [hrest] at h
          simp [Except.map] at h

/-- Every reference in the instrumented instance points at a cell that was
allocated during this very instantiation: at or past the initial heap
length and inside the final heap. -/
theorem instantiateModelH_ref_range
    {fields : List (String × (FieldType × FieldDefault))}
    {args : List (String × Value)} {heap heap' : List (List Value)}
    {inst : List (String × RValue)}
    (h : instantiateModelH fields args heap = .ok (inst, heap')) :
    ∀ nm i, (nm, RValue.ref i) ∈ inst → heap.length ≤ i ∧ i < heap'.length := by
  induction fields generalizing heap inst heap' with
  | nil =>
    simp [instantiateModelH] at h
    obtain ⟨h1, h2⟩ := h
    subst h1
    subst h2
    intro nm i hmem
    simp at hmem
  | cons hd rest ih =>
    obtain ⟨n, t, d⟩ := hd
    cases halook : alookup n args with
    | some v =>
      cases hval : validateField t v with
      | ok w =>
        rw [instantiateModelH_cons_okH halook hval] at h
        cases hrest : instantiateModelH rest args heap with
        | ok r =>
          obtain ⟨tail, hp⟩ := r
          rw [hrest] at h
          simp [Except.map] at h
          obtain ⟨h1, h2⟩ := h
          subst h1 h2
          intro nm i hmem
          rcases List.mem_cons.mp hmem with hmem | hmem
          · exact absurd (congrArg Prod.snd hmem) (fun hh => RValue.noConfusion hh)
          · exact ih hrest nm i hmem
        | error e =>
          rw [hrest] at h
          simp [Except.map] at h
      | error e =>
        rw [instantiateModelH_cons_errH halook hval] at h
        simp at h
    | none =>
      cases d with
      | defaultNone =>
        rw [instantiateModelH_cons_noneH halook] at h
        cases hrest : instantiateModelH rest args heap with
        | ok r =>
          obtain ⟨tail, hp⟩ := r
          rw [hrest] at h
          simp [Except.map] at h
          obtain ⟨h1, h2⟩ := h
          subst h1 h2
          intro nm i hmem
          rcases List.mem_cons.mp hmem with hmem | hmem
          · exact absurd (congrArg Prod.snd hmem) (fun hh => RValue.noConfusion hh)
          · exact ih hrest nm i hmem
        | error e =>
          rw [hrest] at h
          simp [Except.map] at h
      | factoryList =>
        rw [instantiateModelH_cons_factoryH halook] at h
        cases hrest : instantiateModelH rest args (heap ++ [[]]) with
        | ok r =>
          obtain ⟨tail, hp⟩ := r
          rw [hrest] at h
          simp [Except.map] at h
          obtain ⟨h1, h2⟩ := h
          subst h1 h2
          have hlen := (instantiateModelH_heap_mono hrest).1
          simp at hlen
          intro nm i hmem
          rcases List.mem_cons.mp hmem with hmem | hmem
          · have hieq : i = heap.length := by
              have hsnd := congrArg Prod.snd hmem
              simp at hsnd
              exact hsnd
            omega
          · have := ih hrest nm i hmem
            simp at this
            omega
        | error e =>
          rw [hrest] at h
          simp [Except.map] at h

/-- Reading every reference of the instrumented result through the final
heap recovers exactly the plain model's instance: the instrumentation
changes nothing but the identity of the default list objects. -/
theorem instantiateModelH_agrees
    {fields : List (String × (FieldType × FieldDefault))}
    {args : List (String × Value)} {heap heap' : List (List Value)}
    {inst : List (String × RValue)}
    (h : instantiateModelH fields args heap = .ok (inst, heap')) :
    instantiateModel fields args =
      .ok (inst.map (fun kv => (kv.1, interpretRValue heap' kv.2))) := by
  induction fields generalizing heap inst heap' with
  | nil =>
    simp [instantiateModelH] at h
    obtain ⟨h1, h2⟩ := h
    subst h1
    subst h2
    rfl
  | cons hd rest ih =>
    obtain ⟨n, t, d⟩ := hd
    cases halook : alookup n args with
    | some v =>
      cases hval : validateField t v with
      | ok w =>
        rw [instantiateModelH_cons_okH halook hval] at h
        cases hrest : instantiateModelH rest args heap with
        | ok r =>
          obtain ⟨tail, hp⟩ := r
          rw [hrest] at h
          simp [Except.map] at h
          obtain ⟨h1, h2⟩ := h
          subst h1 h2
          rw [instantiateModel_cons_ok halook hval, ih hrest]
          rfl
        | error e =>
          rw [hrest] at h
          simp [Except.map] at h
      | error e =>
        rw [instantiateModelH_cons_errH halook hval] at h
        simp at h
    | none =>
      cases d with
      | defaultNone =>
        rw [instantiateModelH_cons_noneH halook] at h
        cases hrest : instantiateModelH rest args heap with
        | ok r =>
          obtain ⟨tail, hp⟩ := r
          rw [hrest] at h
          simp [Except.map] at h
          obtain ⟨h1, h2⟩ := h
          subst h1 h2
          rw [instantiateModel_cons_default halook, ih hrest]
          rfl
        | error e =>
          rw [hrest] at h
          simp [Except.map] at h
      | factoryList =>
        rw [instantiateModelH_cons_factoryH halook] at h
        cases hrest : instantiateModelH rest args (heap ++ [[]]) with
        | ok r =>
          obtain ⟨tail, hp⟩ := r
          rw [hrest] at h
          simp [Except.map] at h
          obtain ⟨h1, h2⟩ := h
          subst h1
          subst h2
          rw [instantiateModel_cons_default halook, ih hrest]
          have hcell := (instantiateModelH_heap_mono hrest).2 heap.length (by simp)
          rw [List.getElem?_concat_length] at hcell
          simp [Except.map, interpretRValue, defaultValue, hcell]
        | error e =>
          rw [hrest] at h
          simp [Except.map] at h

/-- Claim C8: the empty-list default of a multi-valued parameter is a
fresh object per `create_input` call: across two successive calls on the
same registration, the default cells referenced by the two instances are
distinct, and mutating the second call's cell leaves the first call's cell
untouched. -/
theorem C8_fresh_default_lists (sk : Skill) (args1 args2 : List (String × Value))
    (h0 h1 h2 : List (List Value)) (inst1 inst2 : List (String × RValue))
    (nm : String) (i1 i2 : Nat) (xs : List Value)
    (hc1 : _create_skill_argumentsH sk args1 h0 = .ok (inst1, h1))
    (hc2 : _create_skill_argumentsH sk args2 h1 = .ok (inst2, h2))
    (hr1 : alookup nm inst1 = some (.ref i1))
    (hr2 : alookup nm inst2 = some (.ref i2)) :
    i1 ≠ i2 ∧ (h2.set i2 xs)[i1]? = h2[i1]? := by
  have hrange1 := instantiateModelH_ref_range hc1 nm i1 (alookup_mem hr1)
  have hrange2 := instantiateModelH_ref_range hc2 nm i2 (alookup_mem hr2)
  have hne : i1 ≠ i2 := by omega
  exact ⟨hne, List.getElem?_set_ne (fun hh => hne hh.symm)⟩

/-- Witness for C8: two parameterless `create_input` calls on the test
registration allocate cells 0 and 1 for `metrics`; writing cell 1 leaves
cell 0 unchanged. -/
theorem C8_witness :
    (0 : Nat) ≠ 1 ∧
    (([[], []] : List (List Value)).set 1 [Value.vint 5])[0]? =
      ([[], []] : List (List Value))[0]? :=
  C8_fresh_default_lists someSkill [] [] [] [[]] [[], []]
    [("metrics", RValue.ref 0), ("dim", RValue.val Value.vnone)]
    [("metrics", RValue.ref 1), ("dim", RValue.val Value.vnone)]
    "metrics" 0 1 [Value.vint 5] rfl rfl rfl rfl

/-- Witness for C10: the single-valued `dim` receives the supplied string
verbatim. -/
theorem C10_witness :
    alookup dimParam.name [("metrics", Value.vlist []), ("dim", Value.vstr "west")] =
      some (Value.vstr "west") :=
  C10_single_passthrough someSkill [("dim", Value.vstr "west")]
    [("metrics", Value.vlist []), ("dim", Value.vstr "west")]
    dimParam (by decide) rfl (Value.vstr "west") rfl rfl
